import Mathlib

/-!
Verification of the EasyClaude hotkey engine (`app/hotkey.py`) and the
bounded directory-history store (`app/config.py`) against their
natural-language specification.

The Python code is shallowly embedded: the pynput key objects become an
inductive type, Python sets become `Finset`, the stateful `HotkeyManager`
becomes explicit state passing, exceptions become `Except`, and timestamps
are passed in explicitly (the code reads the wall clock; here the caller
supplies the ISO string).
-/

namespace EasyClaude

/-- Result-or-exception discriminator for embedded fallible code. -/
def isErr {ε α : Type} : Except ε α → Bool
  | .error _ => true
  | .ok _ => false

instance exceptDecEq {ε α : Type} [DecidableEq ε] [DecidableEq α] :
    DecidableEq (Except ε α) := fun x y =>
  match x, y with
  | .ok a, .ok b =>
      if h : a = b then .isTrue (h ▸ rfl) else .isFalse (fun hh => h (Except.ok.inj hh))
  | .error a, .error b =>
      if h : a = b then .isTrue (h ▸ rfl) else .isFalse (fun hh => h (Except.error.inj hh))
  | .ok _, .error _ => .isFalse Except.noConfusion
  | .error _, .ok _ => .isFalse Except.noConfusion

/-! ## Keys (embedding of pynput `Key` / `KeyCode`) -/

/-- A pynput key object: either a named special key (`Key.<name>`) or a
`KeyCode` carrying an optional character and an optional virtual-key code. -/
inductive PynKey where
  | key (name : String)
  | keyCode (char : Option Char) (vk : Option Nat)
deriving DecidableEq, Repr

/-- The member names of pynput's `Key` namespace (Windows backend), used by
the `getattr(Key, part)` lookup in `_parse_hotkey`. -/
def pynputKeyNames : List String :=
  ["alt", "alt_gr", "alt_l", "alt_r", "backspace", "caps_lock",
   "cmd", "cmd_l", "cmd_r", "ctrl", "ctrl_l", "ctrl_r", "delete",
   "down", "end", "enter", "esc",
   "f1", "f2", "f3", "f4", "f5", "f6", "f7", "f8", "f9", "f10",
   "f11", "f12", "f13", "f14", "f15", "f16", "f17", "f18", "f19", "f20",
   "f21", "f22", "f23", "f24",
   "home", "insert", "left", "media_next", "media_play_pause",
   "media_previous", "media_volume_down", "media_volume_mute",
   "media_volume_up", "menu", "num_lock", "page_down", "page_up",
   "pause", "print_screen", "right", "scroll_lock",
   "shift", "shift_l", "shift_r", "space", "tab", "up"]

/-- `KeyCode.from_char(c)`: a key code with the character set and no vk. -/
def fromChar (c : Char) : PynKey := .keyCode (some c) none

/-- The `modifier_aliases` table of `HotkeyManager._key_tokens`, as a
partial map from keys to side-independent modifier names. -/
def modifierAlias : PynKey → Option String
  | .key n =>
      if n ∈ ["ctrl", "ctrl_l", "ctrl_r"] then some "ctrl"
      else if n ∈ ["alt", "alt_l", "alt_r"] then some "alt"
      else if n ∈ ["shift", "shift_l", "shift_r"] then some "shift"
      else if n ∈ ["cmd", "cmd_l", "cmd_r"] then some "cmd"
      else none
  | _ => none

/-- `HotkeyManager._key_tokens`: normalized tokens for one key.  Modifiers
normalize to a side-independent `mod:` token; key codes contribute their
vk and lowercased char, plus a best-effort vk for alphabetic chars. -/
def key_tokens (k : PynKey) : Finset String :=
  match modifierAlias k with
  | some m => {"mod:" ++ m}
  | none =>
    match k with
    | .keyCode ch vk =>
        let t1 : Finset String :=
          match vk with
          | some v => {"vk:" ++ toString v}
          | none => ∅
        match ch with
        | some c =>
            let lc := c.toLower
            let t2 := insert ("char:" ++ String.singleton lc) t1
            if 'a' ≤ lc ∧ lc ≤ 'z' then
              insert ("vk:" ++ toString lc.toUpper.toNat) t2
            else t2
        | none => t1
    | _ => ∅

/-! ## Hotkey spec parsing (`HotkeyManager._parse_hotkey`) -/

/-- The if/elif chain in the `for part in parts` loop of `_parse_hotkey`:
the key a part maps to, or `none` when it is invalid.  (The
`KeyCode.from_char` call cannot raise `KeyError`, so a single-character
part always succeeds; the `getattr(Key, part)` lookup succeeds exactly
for the names of pynput's `Key` namespace.) -/
def classifyPart (part : String) : Option PynKey :=
  if part ∈ ["ctrl", "control"] then some (.key "ctrl_l")
  else if part ∈ ["alt"] then some (.key "alt_l")
  else if part ∈ ["shift"] then some (.key "shift_l")
  else if part ∈ ["cmd", "win", "meta", "command"] then some (.key "cmd")
  else if part ∈ ["cmd_r", "win_r", "meta_r"] then some (.key "cmd_r")
  else if part ∈ ["ctrl_r", "control_r"] then some (.key "ctrl_r")
  else if part ∈ ["alt_r"] then some (.key "alt_r")
  else if part ∈ ["shift_r"] then some (.key "shift_r")
  else if part.length = 1 then some (fromChar (part.toList.headD ' '))
  else if part ∈ pynputKeyNames then some (.key part)
  else none

/-- The `for part in parts` loop of `_parse_hotkey`: classify each part into
the combination or the invalid list. -/
def parseParts : List String → List PynKey → List String → (List PynKey × List String)
  | [], comb, invalid => (comb, invalid)
  | part :: rest, comb, invalid =>
    match classifyPart part with
    | some k => parseParts rest (comb ++ [k]) invalid
    | none => parseParts rest comb (invalid ++ [part])

/-- All modifier-alias parts accepted by the if/elif chain. -/
def modifierAliasParts : List String :=
  ["ctrl", "control", "alt", "shift", "cmd", "win", "meta", "command",
   "cmd_r", "win_r", "meta_r", "ctrl_r", "control_r", "alt_r", "shift_r"]

/-- Split a character list on a separator character, preserving empty
pieces (the behavior of Python `str.split(sep)`). -/
def splitOnChar (c : Char) : List Char → List (List Char)
  | [] => [[]]
  | x :: xs =>
    match splitOnChar c xs with
    | [] => [[]]
    | r :: rs => if x = c then [] :: r :: rs else (x :: r) :: rs

/-- Python `not s or not s.strip()`: the string is empty or
whitespace-only. -/
def stripEmpty (s : String) : Bool := s.toList.all Char.isWhitespace

/-- Python `s.strip().lower()` (character-level model). -/
def stripLower (s : String) : String :=
  String.mk
    (((s.toList.dropWhile Char.isWhitespace).reverse.dropWhile
        Char.isWhitespace).reverse.map Char.toLower)

/-- The parts of a spec string: lowercased, spaces removed, split on `+`
(`self._hotkey_string.lower().replace(" ", "").split("+")`). -/
def hotkeyParts (spec : String) : List String :=
  (splitOnChar '+' ((spec.toList.map Char.toLower).filter (fun c => c ≠ ' '))).map
    fun l => String.mk l

/-- Error message listing all unrecognized parts together. -/
def unknownKeysMsg (invalid : List String) : String :=
  "Unknown key(s) in hotkey: " ++ String.intercalate ", " invalid ++
    ". Valid formats: modifier+key (e.g., ctrl+alt+c)"

/-- `HotkeyManager._parse_hotkey`, as a pure function from the spec string
to either the parsed combination or the `HotkeyValidationError` message. -/
def parse_hotkey (spec : String) : Except String (List PynKey) :=
  if stripEmpty spec then
    .error "Hotkey string cannot be empty"
  else
    let res := parseParts (hotkeyParts spec) [] []
    if res.2 ≠ [] then .error (unknownKeysMsg res.2)
    else if res.1 = [] then
      .error ("Could not parse hotkey. Format: modifier+key (e.g., ctrl+alt+c)")
    else .ok res.1

/-! ## Engine state and event handling -/

/-- The mutable fields of a `HotkeyManager` instance.  The callback,
listener and executor are modelled by their presence (`Bool`). -/
structure HotkeyState where
  hotkey_string : String
  callback : Bool
  listener : Bool
  hotkey_combination : Option (List PynKey)
  pressed_keys : Finset PynKey
  pressed_key_tokens : Finset String
  active : Bool
  executor : Bool
  hotkey_latched : Bool
deriving DecidableEq

/-- Python truthiness of the `_hotkey_combination` tuple
(`None` and the empty tuple are falsy). -/
def combTruthy : Option (List PynKey) → Bool
  | some l => !l.isEmpty
  | none => false

/-- `HotkeyManager.__init__`: parse the spec and build the initial state,
or propagate `HotkeyValidationError`. -/
def HotkeyManager.init (hotkey_string : String) : Except String HotkeyState :=
  match parse_hotkey hotkey_string with
  | .error e => .error e
  | .ok comb =>
      .ok { hotkey_string := hotkey_string
            callback := false
            listener := false
            hotkey_combination := some comb
            pressed_keys := ∅
            pressed_key_tokens := ∅
            active := false
            executor := false
            hotkey_latched := false }

/-- All tokens of the live pressed-keys set (`_is_hotkey_pressed` derives
them afresh from `_pressed_keys`). -/
def pressedTokens (s : HotkeyState) : Finset String :=
  s.pressed_keys.biUnion key_tokens

/-- `HotkeyManager._is_hotkey_pressed`: every required combination key has
a non-empty token set intersecting the pressed tokens. -/
def is_hotkey_pressed (s : HotkeyState) : Bool :=
  match s.hotkey_combination with
  | none => false
  | some comb =>
      if comb.isEmpty then false
      else comb.all fun key =>
        let required := key_tokens key
        decide (required ≠ ∅) && decide (required ∩ pressedTokens s ≠ ∅)

/-- The state mutation at the top of `_on_press` (add the key and its
tokens to the live sets). -/
def pressUpdate (s : HotkeyState) (k : PynKey) : HotkeyState :=
  { s with pressed_keys := insert k s.pressed_keys
           pressed_key_tokens := s.pressed_key_tokens ∪ key_tokens k }

/-- `HotkeyManager._on_press`: returns the new state and whether the
callback was dispatched to the executor. -/
def on_press (s : HotkeyState) (k : PynKey) : HotkeyState × Bool :=
  let s := pressUpdate s k
  if combTruthy s.hotkey_combination && s.callback && s.active then
    if is_hotkey_pressed s && !s.hotkey_latched then
      ({ s with hotkey_latched := true }, true)
    else (s, false)
  else (s, false)

/-- The state mutation at the top of `_on_release` (discard the key and
its tokens). -/
def releaseUpdate (s : HotkeyState) (k : PynKey) : HotkeyState :=
  { s with pressed_keys := s.pressed_keys.erase k
           pressed_key_tokens := s.pressed_key_tokens \ key_tokens k }

/-- `HotkeyManager._on_release`: drop the key; clear the latch when the
combination is no longer fully satisfied. -/
def on_release (s : HotkeyState) (k : PynKey) : HotkeyState :=
  let s := releaseUpdate s k
  if is_hotkey_pressed s then s else { s with hotkey_latched := false }

/-- `HotkeyManager.register`. -/
def register (s : HotkeyState) (cb : Bool) : HotkeyState × Bool :=
  if s.active then (s, false)
  else if !cb then (s, false)
  else
    let s := { s with callback := cb }
    let s := if !s.executor then { s with executor := true } else s
    ({ s with listener := true, active := true }, true)

/-- `HotkeyManager.unregister`. -/
def unregister (s : HotkeyState) : HotkeyState :=
  let s := if s.listener then { s with listener := false } else s
  let s := if s.executor then { s with executor := false } else s
  { s with callback := false
           active := false
           hotkey_latched := false
           pressed_keys := ∅
           pressed_key_tokens := ∅ }

/-- `HotkeyManager.set_hotkey`: unregister if active, reparse; on failure
restore the old spec and combination and propagate the error; on success
re-register only if previously active with a saved callback. -/
def set_hotkey (s : HotkeyState) (hotkey_string : String) : HotkeyState × Except String Bool :=
  let was_active := s.active
  let saved_callback := s.callback
  let s := if was_active then unregister s else s
  let old_hotkey := s.hotkey_string
  let s := { s with hotkey_string := hotkey_string }
  match parse_hotkey hotkey_string with
  | .error e =>
      let s := { s with hotkey_string := old_hotkey }
      let s :=
        match parse_hotkey old_hotkey with
        | .ok c => { s with hotkey_combination := some c }
        | .error _ => s
      (s, .error e)
  | .ok c =>
      let s := { s with hotkey_combination := some c }
      if was_active && saved_callback then
        let r := register s saved_callback
        (r.1, .ok r.2)
      else (s, .ok true)

/-! ## Event sequences -/

/-- One raw keyboard-hook event. -/
inductive KEvent where
  | press (k : PynKey)
  | release (k : PynKey)
deriving DecidableEq, Repr

/-- Deliver one event; the `Bool` records whether a callback was
dispatched (release events never dispatch). -/
def stepFires (s : HotkeyState) : KEvent → HotkeyState × Bool
  | .press k => on_press s k
  | .release k => (on_release s k, false)

/-- Deliver a list of events, counting callback dispatches. -/
def runFires : HotkeyState → List KEvent → HotkeyState × Nat
  | s, [] => (s, 0)
  | s, e :: evs =>
      let sf := stepFires s e
      let rn := runFires sf.1 evs
      (rn.1, (if sf.2 then 1 else 0) + rn.2)

/-! ## Concrete keys and states used in the claims -/

/-- The combination parsed from `"ctrl+alt+c"`. -/
def ctrlAltC : List PynKey := [.key "ctrl_l", .key "alt_l", fromChar 'c']

/-- A registered engine state for a given combination and pressed set. -/
def testState (comb : List PynKey) (pressed : Finset PynKey) : HotkeyState :=
  { hotkey_string := "ctrl+alt+c"
    callback := true
    listener := true
    hotkey_combination := some comb
    pressed_keys := pressed
    pressed_key_tokens := ∅
    active := true
    executor := true
    hotkey_latched := false }

/-- The character key `c`. -/
def cKey : PynKey := fromChar 'c'

/-- A registered engine for `ctrl+alt+c` with both modifiers already held
(used as a concrete witness input). -/
def regCAC : HotkeyState :=
  { hotkey_string := "ctrl+alt+c"
    callback := true
    listener := true
    hotkey_combination := some ctrlAltC
    pressed_keys := {PynKey.key "ctrl_l", PynKey.key "alt_l"}
    pressed_key_tokens := ∅
    active := true
    executor := true
    hotkey_latched := false }

/-- The initial manager state for the default hotkey (inactive). -/
def initCAC : HotkeyState :=
  { hotkey_string := "ctrl+alt+c"
    callback := false
    listener := false
    hotkey_combination := some ctrlAltC
    pressed_keys := ∅
    pressed_key_tokens := ∅
    active := false
    executor := false
    hotkey_latched := false }

/-- The default-hotkey manager after `register` (active). -/
def activeCAC : HotkeyState := (register initCAC true).1

/-! ## Startup hotkey resolution (`config.py` / `main.py`) -/

/-- `DEFAULT_HOTKEY` in `config.py`. -/
def DEFAULT_HOTKEY : String := "ctrl+alt+c"

/-- `Config.validate_hotkey`: empty or whitespace-only specs fall back to
the default; any other value is kept, stripped and lowercased. -/
def validate_hotkey (v : String) : String :=
  if stripEmpty v then DEFAULT_HOTKEY else stripLower v

/-- The hotkey setup in `EasyClaudeApp.__init__`: the validated config
hotkey is passed to the `HotkeyManager` constructor; a
`HotkeyValidationError` raised there propagates (there is no handler
around the construction). -/
def startupHotkey (configured : String) : Except String HotkeyState :=
  HotkeyManager.init (validate_hotkey configured)

/-! ## Directory history (`config.py`) -/

/-- `DEFAULT_MAX_HISTORY_ENTRIES` in `config.py`. -/
def DEFAULT_MAX_HISTORY_ENTRIES : Nat := 15

/-- One directory-history record.  `last_used` is the ISO timestamp
string; the wall clock is passed in by callers as `now`. -/
structure DirectoryEntry where
  path : String
  last_used : String
  usage_count : Nat
deriving DecidableEq, Repr

/-- A scalar JSON field value as seen by the validator.  `other` stands
for any non-scalar value (nested list/dict): for the validator only the
runtime type checks matter, and such values are neither strings nor
integers. -/
inductive JValue where
  | null
  | bool (b : Bool)
  | num (n : Int)
  | str (s : String)
  | other
deriving DecidableEq, Repr

/-- One element of the persisted `directory_history` list as the pre
validator sees it: a raw string (legacy format), a JSON dict, an
in-memory `DirectoryEntry` object, or any other value (skipped by the
cleaning loop). -/
inductive HItem where
  | str (s : String)
  | dict (fields : List (String × JValue))
  | entry (e : DirectoryEntry)
  | other
deriving DecidableEq, Repr

/-- The value found under `directory_history` in the persisted data:
`None`, a non-list value, or a list of items. -/
inductive HistField where
  | none_
  | notList
  | list (items : List HItem)
deriving DecidableEq, Repr

/-- Python `dict.get(key, default)`. -/
def jget (fields : List (String × JValue)) (k : String) (dflt : JValue) : JValue :=
  match fields.find? (fun p => p.1 == k) with
  | some p => p.2
  | none => dflt

/-- Constructing `DirectoryEntry(path=..., last_used=..., usage_count=...)`:
pydantic validates `last_used` as a string and `usage_count` as an integer
with `ge=1`, raising a validation error otherwise. -/
def mkDirectoryEntry (path : String) (last_used usage_count : JValue) :
    Except String DirectoryEntry :=
  match last_used with
  | .str t =>
      match usage_count with
      | .num n =>
          if 1 ≤ n then .ok ⟨path, t, n.toNat⟩
          else .error "usage_count must be greater than or equal to 1"
      | _ => .error "usage_count must be an integer"
  | _ => .error "last_used must be a string"

/-- The legacy-format migration loop of `Config.validate_directory_history`
(taken when the list's first element is a string): keep non-empty strings
not seen before, in order, stopping at the maximum length. -/
def migrateLegacy (now : String) : List HItem → List DirectoryEntry → List DirectoryEntry
  | [], migrated => migrated.reverse
  | item :: rest, migrated =>
    let migrated' :=
      match item with
      | .str path =>
          if path ≠ "" ∧ ¬ migrated.any (fun e => e.path == path) then
            (⟨path, now, 1⟩ : DirectoryEntry) :: migrated
          else migrated
      | _ => migrated
    if DEFAULT_MAX_HISTORY_ENTRIES ≤ migrated'.length then migrated'.reverse
    else migrateLegacy now rest migrated'

/-- The general entry-cleaning loop of `Config.validate_directory_history`:
skip items of the wrong shape (non-dict/non-entry items; missing, empty or
non-string paths; duplicate paths), rebuild each kept entry through
`DirectoryEntry` validation (which can raise), and stop at the maximum
length. -/
def cleanEntries (now : String) :
    List HItem → List String → List DirectoryEntry → Except String (List DirectoryEntry)
  | [], _, result => .ok result.reverse
  | item :: rest, seen_paths, result =>
    let info : Option (JValue × JValue × JValue) :=
      match item with
      | .dict fields =>
          some (jget fields "path" (.str ""), jget fields "last_used" (.str now),
            jget fields "usage_count" (.num 1))
      | .entry e => some (.str e.path, .str e.last_used, .num (e.usage_count : Int))
      | _ => none
    match info with
    | none => cleanEntries now rest seen_paths result
    | some (pv, lu, uc) =>
      match pv with
      | .str path =>
          if path = "" then cleanEntries now rest seen_paths result
          else if path ∈ seen_paths then cleanEntries now rest seen_paths result
          else
            match mkDirectoryEntry path lu uc with
            | .error e => .error e
            | .ok entry =>
                let result' := entry :: result
                if DEFAULT_MAX_HISTORY_ENTRIES ≤ result'.length then .ok result'.reverse
                else cleanEntries now rest (path :: seen_paths) result'
      | _ => cleanEntries now rest seen_paths result

/-- `Config.validate_directory_history` (pre-validator): `None` and
non-list values become the empty history; a list whose first element is a
string is migrated from the legacy format; any other list goes through the
cleaning loop. -/
def validate_directory_history (now : String) : HistField → Except String (List DirectoryEntry)
  | .none_ => .ok []
  | .notList => .ok []
  | .list items =>
    match items with
    | .str _ :: _ => .ok (migrateLegacy now items [])
    | _ => cleanEntries now items [] []

/-- The list computation inside `add_directory_to_history`: promote an
existing entry (removing every entry with that path, incrementing its
usage count and refreshing its timestamp) or insert a new entry at the
top, then trim to the maximum length. -/
def add_directory_to_history (history : List DirectoryEntry) (directory : String)
    (now : String) : List DirectoryEntry :=
  let new_history :=
    match history.find? (fun e => e.path == directory) with
    | some existing_entry =>
        (⟨directory, now, existing_entry.usage_count + 1⟩ : DirectoryEntry) ::
          history.filter (fun e => e.path != directory)
    | none => (⟨directory, now, 1⟩ : DirectoryEntry) :: history
  new_history.take DEFAULT_MAX_HISTORY_ENTRIES

/-- One full `recordUse`: `add_directory_to_history` rebuilds the `Config`,
which re-runs `validate_directory_history` over the new entry list. -/
def recordUse (history : List DirectoryEntry) (directory : String) (now : String) :
    Except String (List DirectoryEntry) :=
  validate_directory_history now
    (.list ((add_directory_to_history history directory now).map .entry))

/-- A sequence of `recordUse` calls, each given as (path, timestamp). -/
def recordAll : List DirectoryEntry → List (String × String) → Except String (List DirectoryEntry)
  | h, [] => .ok h
  | h, op :: rest =>
    match recordUse h op.1 op.2 with
    | .ok h2 => recordAll h2 rest
    | .error e => .error e

/-- The directory history `load_config` produces: `Config(**data)` on
success; when validation raises, the exception is caught in `load_config`
and the default `Config()` — with an empty history — replaces the entire
persisted configuration. -/
def load_config_directory_history (now : String) (persisted : HistField) :
    List DirectoryEntry :=
  match validate_directory_history now persisted with
  | .ok l => l
  | .error _ => []

/-- First-occurrence deduplication, stated from the spec wording of the
migration rule (used to compare the migration loop against the claim). -/
def dedupFirst (seen : List String) : List String → List String
  | [] => []
  | x :: xs => if x ∈ seen then dedupFirst seen xs else x :: dedupFirst (x :: seen) xs

/-- The well-formedness invariant `validate_directory_history`
establishes: bounded length, unique non-empty paths, usage counts ≥ 1. -/
def WFHist (h : List DirectoryEntry) : Prop :=
  h.length ≤ DEFAULT_MAX_HISTORY_ENTRIES ∧
  (h.map DirectoryEntry.path).Nodup ∧
  (∀ e ∈ h, e.path ≠ "") ∧
  (∀ e ∈ h, 1 ≤ e.usage_count)

/-- A full history of 15 distinct entries (concrete input for the
empty-path counterexample). -/
def h15 : List DirectoryEntry :=
  [⟨"p1", "T", 1⟩, ⟨"p2", "T", 1⟩, ⟨"p3", "T", 1⟩, ⟨"p4", "T", 1⟩, ⟨"p5", "T", 1⟩,
   ⟨"p6", "T", 1⟩, ⟨"p7", "T", 1⟩, ⟨"p8", "T", 1⟩, ⟨"p9", "T", 1⟩, ⟨"p10", "T", 1⟩,
   ⟨"p11", "T", 1⟩, ⟨"p12", "T", 1⟩, ⟨"p13", "T", 1⟩, ⟨"p14", "T", 1⟩, ⟨"p15", "T", 1⟩]

/-- A small well-formed history (witness input). -/
def h2ex : List DirectoryEntry := [⟨"a", "T", 1⟩, ⟨"b", "T", 2⟩]

/-- Twenty distinct `recordUse` operations (witness input). -/
def ops20 : List (String × String) :=
  [("d1", "t1"), ("d2", "t2"), ("d3", "t3"), ("d4", "t4"), ("d5", "t5"),
   ("d6", "t6"), ("d7", "t7"), ("d8", "t8"), ("d9", "t9"), ("d10", "t10"),
   ("d11", "t11"), ("d12", "t12"), ("d13", "t13"), ("d14", "t14"), ("d15", "t15"),
   ("d16", "t16"), ("d17", "t17"), ("d18", "t18"), ("d19", "t19"), ("d20", "t20")]

/-- Whether an item is a raw legacy string (a list is in the modern
format when it contains none). -/
def isStrItem : HItem → Bool
  | .str _ => true
  | _ => false

/-- Items the cleaning loop can keep: dicts and entry objects whose path
value is a non-empty string.  All other items are skipped by the loop. -/
def usableItem : HItem → Bool
  | .dict fields =>
      match jget fields "path" (.str "") with
      | .str p => !(p == "")
      | _ => false
  | .entry e => !(e.path == "")
  | _ => false

/-- A usable item whose field values pass `DirectoryEntry` validation
(`last_used` a string, `usage_count` an integer at least 1). -/
def fieldsOk (now : String) (item : HItem) : Bool :=
  !(usableItem item) ||
    (match item with
     | .dict fields =>
         (match jget fields "path" (.str "") with
          | .str p =>
              !(isErr (mkDirectoryEntry p (jget fields "last_used" (.str now))
                (jget fields "usage_count" (.num 1))))
          | _ => true)
     | .entry e =>
         !(isErr (mkDirectoryEntry e.path (.str e.last_used) (.num (e.usage_count : Int))))
     | _ => true)

/-- The parts of a spec that the `_parse_hotkey` loop cannot recognize
(they end up in `invalid_keys`, in order). -/
def invalidParts (spec : String) : List String :=
  (hotkeyParts spec).filter fun p => (classifyPart p).isNone

/-- The `invalid_keys` list accumulated by the parse loop is the input
accumulator followed by every unrecognized part, in order. -/
theorem parseParts_snd (parts : List String) (comb : List PynKey) (invalid : List String) :
    (parseParts parts comb invalid).2 =
      invalid ++ parts.filter (fun p => (classifyPart p).isNone) := by
  induction parts generalizing comb invalid with
  | nil => simp [parseParts]
  | cons p rest ih =>
    cases h : classifyPart p with
    | some k => simp [parseParts, h, ih]
    | none => simp [parseParts, h, ih]

/-- A part that is no modifier alias, no single character and no pynput
key name is unrecognized. -/
theorem classifyPart_eq_none {p : String}
    (h1 : p ∉ modifierAliasParts) (h2 : p.length ≠ 1) (h3 : p ∉ pynputKeyNames) :
    classifyPart p = none := by
  simp only [modifierAliasParts, List.mem_cons, List.not_mem_nil, or_false, not_or] at h1
  obtain ⟨n1, n2, n3, n4, n5, n6, n7, n8, n9, n10, n11, n12, n13, n14, n15⟩ := h1
  simp [classifyPart, List.mem_cons, n1, n2, n3, n4, n5, n6, n7, n8, n9, n10,
    n11, n12, n13, n14, n15, h2, h3]

/-- An unrecognized part makes the whole parse fail with the message
listing every unrecognized part. -/
theorem parse_hotkey_invalid {spec : String}
    (hs : stripEmpty spec = false) (hinv : invalidParts spec ≠ []) :
    parse_hotkey spec = .error (unknownKeysMsg (invalidParts spec)) := by
  have hres : (parseParts (hotkeyParts spec) [] []).2 = invalidParts spec := by
    simp [parseParts_snd, invalidParts]
  simp only [parse_hotkey, hs, Bool.false_eq_true, if_false, hres, hinv, ite_true,
    ne_eq, not_false_iff, if_true]

/-- C3: side-insensitive modifier matching.  `ctrl+alt+c` parses to the
left-side combination; pressing right-Ctrl, left-Alt and `c` satisfies it;
releasing any one of the three un-satisfies it; and a combination parsed
from `ctrl_r+c` is satisfied by left Ctrl plus `c`. -/
theorem side_insensitive_modifier_matching :
    parse_hotkey "ctrl+alt+c" = .ok ctrlAltC ∧
    is_hotkey_pressed
      (testState ctrlAltC {PynKey.key "ctrl_r", PynKey.key "alt_l", fromChar 'c'}) = true ∧
    is_hotkey_pressed
      (on_release (testState ctrlAltC {PynKey.key "ctrl_r", PynKey.key "alt_l", fromChar 'c'})
        (PynKey.key "ctrl_r")) = false ∧
    is_hotkey_pressed
      (on_release (testState ctrlAltC {PynKey.key "ctrl_r", PynKey.key "alt_l", fromChar 'c'})
        (PynKey.key "alt_l")) = false ∧
    is_hotkey_pressed
      (on_release (testState ctrlAltC {PynKey.key "ctrl_r", PynKey.key "alt_l", fromChar 'c'})
        (fromChar 'c')) = false ∧
    parse_hotkey "ctrl_r+c" = .ok [.key "ctrl_r", fromChar 'c'] ∧
    is_hotkey_pressed
      (testState [.key "ctrl_r", fromChar 'c'] {PynKey.key "ctrl_l", fromChar 'c'}) = true := by
  decide


/-- C6: `_parse_hotkey` rejects invalid specs with `HotkeyValidationError`:
empty or whitespace-only specs fail; any spec with a part that is neither a
modifier alias nor a single character nor a pynput key name fails; the four
concrete specs fail; and when unrecognized parts are present they are all
listed together in one error. -/
theorem invalid_spec_rejection :
    (∀ spec : String, stripEmpty spec = true → isErr (parse_hotkey spec) = true) ∧
    (∀ spec part : String, part ∈ hotkeyParts spec →
      part ∉ modifierAliasParts → part.length ≠ 1 → part ∉ pynputKeyNames →
      isErr (parse_hotkey spec) = true) ∧
    isErr (parse_hotkey "") = true ∧
    isErr (parse_hotkey "justtext") = true ∧
    isErr (parse_hotkey "ctrl+") = true ∧
    isErr (parse_hotkey "fn+ctrl+c") = true ∧
    (∀ spec : String, stripEmpty spec = false → invalidParts spec ≠ [] →
      parse_hotkey spec = .error (unknownKeysMsg (invalidParts spec))) := by
  refine ⟨?_, ?_, by decide, by decide, by decide, by decide, ?_⟩
  · intro spec h
    simp [parse_hotkey, h, isErr]
  · intro spec part hmem h1 h2 h3
    cases hs : stripEmpty spec with
    | true => simp [parse_hotkey, hs, isErr]
    | false =>
      have hnone := classifyPart_eq_none h1 h2 h3
      have hp : part ∈ invalidParts spec :=
        List.mem_filter.mpr ⟨hmem, by simp [hnone]⟩
      rw [parse_hotkey_invalid hs (List.ne_nil_of_mem hp)]
      rfl
  · intro spec hs hinv
    exact parse_hotkey_invalid hs hinv

/-- Witness for C6: concrete instantiations of the universal parts — a
whitespace-only spec fails, `fn` in `fn+ctrl+c` makes the parse fail, and
`fn+foo+c` fails with both unrecognized parts listed in one error. -/
theorem invalid_spec_rejection_witness :
    isErr (parse_hotkey " ") = true ∧
    isErr (parse_hotkey "fn+ctrl+c") = true ∧
    parse_hotkey "fn+foo+c" = .error (unknownKeysMsg (invalidParts "fn+foo+c")) :=
  ⟨invalid_spec_rejection.1 " " (by decide),
   invalid_spec_rejection.2.1 "fn+ctrl+c" "fn" (by decide) (by decide) (by decide) (by decide),
   invalid_spec_rejection.2.2.2.2.2.2 "fn+foo+c" (by decide) (by decide)⟩

/-- A press while the latch is set never dispatches, keeps the latch, and
leaves the registration fields untouched. -/
theorem on_press_of_latched {s : HotkeyState} (k : PynKey) (h : s.hotkey_latched = true) :
    (on_press s k).2 = false ∧
    (on_press s k).1.hotkey_latched = true ∧
    (on_press s k).1.active = s.active ∧
    (on_press s k).1.callback = s.callback ∧
    (on_press s k).1.hotkey_combination = s.hotkey_combination := by
  have h' : (pressUpdate s k).hotkey_latched = true := h
  simp only [on_press, h', Bool.not_true, Bool.and_false, Bool.false_eq_true, if_false]
  split_ifs <;> exact ⟨rfl, h, rfl, rfl, rfl⟩

/-- A press from an unlatched, registered state that completes the
combination dispatches the callback, sets the latch, and leaves the
registration fields untouched. -/
theorem on_press_fires {s : HotkeyState} {k : PynKey}
    (hact : s.active = true) (hcb : s.callback = true)
    (hcomb : combTruthy s.hotkey_combination = true)
    (hlatch : s.hotkey_latched = false)
    (hsat : is_hotkey_pressed (pressUpdate s k) = true) :
    (on_press s k).2 = true ∧
    (on_press s k).1.hotkey_latched = true ∧
    (on_press s k).1.active = s.active ∧
    (on_press s k).1.callback = s.callback ∧
    (on_press s k).1.hotkey_combination = s.hotkey_combination := by
  have h1 : (pressUpdate s k).active = true := hact
  have h2 : (pressUpdate s k).callback = true := hcb
  have h3 : combTruthy (pressUpdate s k).hotkey_combination = true := hcomb
  have h4 : (pressUpdate s k).hotkey_latched = false := hlatch
  simp only [on_press, h1, h2, h3, h4, hsat, Bool.not_false, Bool.and_true, Bool.and_self,
    if_true]
  refine ⟨?_, ?_, ?_, ?_, ?_⟩ <;> first | rfl | simp [hact, hcb, pressUpdate]

/-- A release after which the combination is not fully satisfied clears
the latch and leaves the registration fields untouched. -/
theorem on_release_clears {s : HotkeyState} {k : PynKey}
    (h : is_hotkey_pressed (releaseUpdate s k) = false) :
    (on_release s k).hotkey_latched = false ∧
    (on_release s k).active = s.active ∧
    (on_release s k).callback = s.callback ∧
    (on_release s k).hotkey_combination = s.hotkey_combination := by
  simp only [on_release, h, Bool.false_eq_true, if_false]
  refine ⟨?_, ?_, ?_, ?_⟩ <;> first | rfl | simp [releaseUpdate]

/-- Delivering any number of further press events from a latched state
dispatches no callback, keeps the latch, and leaves the registration
fields untouched. -/
theorem runFires_presses_latched (ps : List PynKey) :
    ∀ s : HotkeyState, s.hotkey_latched = true →
      (runFires s (ps.map KEvent.press)).2 = 0 ∧
      (runFires s (ps.map KEvent.press)).1.hotkey_latched = true ∧
      (runFires s (ps.map KEvent.press)).1.active = s.active ∧
      (runFires s (ps.map KEvent.press)).1.callback = s.callback ∧
      (runFires s (ps.map KEvent.press)).1.hotkey_combination = s.hotkey_combination := by
  induction ps with
  | nil =>
    intro s h
    simp [runFires, h]
  | cons p rest ih =>
    intro s h
    obtain ⟨f, fl, fa, fc, fcb⟩ := on_press_of_latched p h
    obtain ⟨z, l, a, c, cb⟩ := ih (on_press s p).1 fl
    refine ⟨?_, ?_, ?_, ?_, ?_⟩
    · simp only [List.map_cons, runFires, stepFires, f]
      simpa using z
    · simp only [List.map_cons, runFires, stepFires]
      exact l
    · simp only [List.map_cons, runFires, stepFires]
      rw [a, fa]
    · simp only [List.map_cons, runFires, stepFires]
      rw [c, fc]
    · simp only [List.map_cons, runFires, stepFires]
      rw [cb, fcb]

/-- Fire counts add over concatenated event sequences. -/
theorem runFires_append (a b : List KEvent) :
    ∀ s : HotkeyState,
      runFires s (a ++ b) =
        ((runFires (runFires s a).1 b).1,
         (runFires s a).2 + (runFires (runFires s a).1 b).2) := by
  induction a with
  | nil => intro s; simp [runFires]
  | cons e rest ih =>
    intro s
    simp [runFires, ih (stepFires s e).1, Nat.add_assoc]

/-- C2: single fire per press.  From a registered, unlatched engine, a
press completing the combination dispatches the callback exactly once even
across N further (repeated) press deliveries; a release that un-satisfies
the combination clears the latch; and a press completing the combination
again dispatches exactly once more (two dispatches in total). -/
theorem single_fire_per_press
    (s : HotkeyState) (k0 : PynKey) (ps : List PynKey) (r k1 : PynKey)
    (hact : s.active = true) (hcb : s.callback = true)
    (hcomb : combTruthy s.hotkey_combination = true)
    (hlatch : s.hotkey_latched = false)
    (hsat : is_hotkey_pressed (pressUpdate s k0) = true)
    (hrel : is_hotkey_pressed (releaseUpdate
        (runFires s (KEvent.press k0 :: ps.map KEvent.press)).1 r) = false)
    (hsat2 : is_hotkey_pressed (pressUpdate (on_release
        (runFires s (KEvent.press k0 :: ps.map KEvent.press)).1 r) k1) = true) :
    (runFires s (KEvent.press k0 :: ps.map KEvent.press)).2 = 1 ∧
    (on_release (runFires s (KEvent.press k0 :: ps.map KEvent.press)).1 r).hotkey_latched
      = false ∧
    (runFires s ((KEvent.press k0 :: ps.map KEvent.press) ++
        (KEvent.release r :: KEvent.press k1 :: []))).2 = 2 := by
  obtain ⟨f1, l1, a1, c1, cb1⟩ := on_press_fires hact hcb hcomb hlatch hsat
  obtain ⟨z, l, a, c, cb⟩ := runFires_presses_latched ps (on_press s k0).1 l1
  have hrun1 : runFires s (KEvent.press k0 :: ps.map KEvent.press) =
      ((runFires (on_press s k0).1 (ps.map KEvent.press)).1,
        1 + (runFires (on_press s k0).1 (ps.map KEvent.press)).2) := by
    simp only [runFires, stepFires, f1, if_true]
  rw [hrun1] at hrel hsat2
  have hcount1 : (runFires s (KEvent.press k0 :: ps.map KEvent.press)).2 = 1 := by
    rw [hrun1, z]
  obtain ⟨rl, ra, rc, rcb⟩ := on_release_clears hrel
  have hact2 : (on_release (runFires (on_press s k0).1
      (ps.map KEvent.press)).1 r).active = true := by
    rw [ra, a, a1]; exact hact
  have hcb2 : (on_release (runFires (on_press s k0).1
      (ps.map KEvent.press)).1 r).callback = true := by
    rw [rc, c, c1]; exact hcb
  have hcomb2 : combTruthy (on_release (runFires (on_press s k0).1
      (ps.map KEvent.press)).1 r).hotkey_combination = true := by
    rw [rcb, cb, cb1]; exact hcomb
  obtain ⟨f3, _, _, _, _⟩ := on_press_fires hact2 hcb2 hcomb2 rl hsat2
  refine ⟨hcount1, by rw [hrun1]; exact rl, ?_⟩
  rw [runFires_append, hcount1, hrun1]
  simp only [runFires, stepFires, f3]
  rfl

/-- Witness for C2: with `ctrl+alt+c` registered and both modifiers held,
pressing `c`, two repeated `c` press deliveries, releasing `c` and
pressing `c` again dispatches the callback exactly twice (once per
completed press). -/
theorem single_fire_per_press_witness :
    (runFires regCAC (KEvent.press cKey :: [cKey, cKey].map KEvent.press)).2 = 1 ∧
    (on_release (runFires regCAC
        (KEvent.press cKey :: [cKey, cKey].map KEvent.press)).1 cKey).hotkey_latched
      = false ∧
    (runFires regCAC ((KEvent.press cKey :: [cKey, cKey].map KEvent.press) ++
        (KEvent.release cKey :: KEvent.press cKey :: []))).2 = 2 :=
  single_fire_per_press regCAC cKey [cKey, cKey] cKey cKey
    (by decide) (by decide) (by decide) (by decide) (by decide) (by decide) (by decide)

/-- C1 counterexample: on an active engine, `set_hotkey` with the invalid
spec `"justtext"` raises `HotkeyValidationError`, restores the hotkey
string — but leaves the engine inactive, so the active/inactive state is
NOT as it was before the call. -/
theorem set_hotkey_state_restore_counterexample :
    HotkeyManager.init "ctrl+alt+c" = .ok initCAC ∧
    activeCAC.active = true ∧
    isErr (set_hotkey activeCAC "justtext").2 = true ∧
    (set_hotkey activeCAC "justtext").1.hotkey_string = "ctrl+alt+c" ∧
    (set_hotkey activeCAC "justtext").1.active = false := by
  decide

/-- C1 (amended): when `set_hotkey` is called with an invalid spec, the
error propagates and the stored hotkey string and parsed combination are
restored exactly; an engine that was inactive is left entirely unchanged;
but the engine is always inactive afterwards (an engine that was active
has been unregistered and is not re-registered on the error path). -/
theorem set_hotkey_invalid_restores_spec
    (s : HotkeyState) (ns : String) (c : List PynKey)
    (hparse : parse_hotkey s.hotkey_string = .ok c)
    (hcomb : s.hotkey_combination = some c)
    (herr : isErr (parse_hotkey ns) = true) :
    isErr (set_hotkey s ns).2 = true ∧
    (set_hotkey s ns).1.hotkey_string = s.hotkey_string ∧
    (set_hotkey s ns).1.hotkey_combination = s.hotkey_combination ∧
    (set_hotkey s ns).1.active = false ∧
    (s.active = false → (set_hotkey s ns).1 = s) := by
  obtain ⟨e, he⟩ : ∃ e, parse_hotkey ns = .error e := by
    cases hp : parse_hotkey ns with
    | ok v => rw [hp] at herr; simp [isErr] at herr
    | error e => exact ⟨e, rfl⟩
  obtain ⟨st, cb0, li, co, pk, pt, ac, ex, la⟩ := s
  simp only at hparse hcomb
  subst hcomb
  cases ac <;> cases li <;> cases ex <;>
    simp [set_hotkey, unregister, he, hparse, isErr]

/-- Witness for C1's amended theorem: on the inactive default-hotkey
engine, `set_hotkey "justtext"` errors and leaves the state unchanged. -/
theorem set_hotkey_invalid_restores_spec_witness :
    isErr (set_hotkey initCAC "justtext").2 = true ∧
    (set_hotkey initCAC "justtext").1.hotkey_string = initCAC.hotkey_string ∧
    (set_hotkey initCAC "justtext").1.hotkey_combination = initCAC.hotkey_combination ∧
    (set_hotkey initCAC "justtext").1.active = false ∧
    (initCAC.active = false → (set_hotkey initCAC "justtext").1 = initCAC) :=
  set_hotkey_invalid_restores_spec initCAC "justtext" ctrlAltC
    (by decide) (by decide) (by decide)

/-- C7 evaluated on the code: an empty configured hotkey does fall back to
the documented default at config validation, but a non-empty invalid spec
such as `"justtext"` is kept by `Config.validate_hotkey` unchanged and
then makes the `HotkeyManager` construction in `EasyClaudeApp.__init__`
raise `HotkeyValidationError` — startup fails instead of falling back. -/
theorem startup_fallback_divergence :
    validate_hotkey "" = DEFAULT_HOTKEY ∧
    startupHotkey "" = .ok initCAC ∧
    validate_hotkey "justtext" = "justtext" ∧
    isErr (startupHotkey "justtext") = true := by
  refine ⟨by decide, by decide, by decide, by decide⟩

/-- C5: promote on reuse — `recordUse("A")`, `recordUse("B")`,
`recordUse("A")` yields `[A, B]` with `A.usage_count = 2`,
`B.usage_count = 1`, and `A.last_used` refreshed to the time of the
second use. -/
theorem history_promote_on_reuse (t1 t2 t3 : String) :
    recordAll [] [("A", t1), ("B", t2), ("A", t3)] =
      .ok [⟨"A", t3, 2⟩, ⟨"B", t2, 1⟩] := rfl

/-- `mkDirectoryEntry` round-trips a well-formed in-memory entry. -/
theorem mkDirectoryEntry_entry (e : DirectoryEntry) (hc : 1 ≤ e.usage_count) :
    mkDirectoryEntry e.path (.str e.last_used) (.num (e.usage_count : Int)) = .ok e := by
  simp only [mkDirectoryEntry]
  rw [if_pos (by exact_mod_cast hc)]
  rw [Int.toNat_natCast]

/-- The cleaning loop is the identity on a list of well-formed entry
objects that fits in the bound: nothing is dropped, reordered or
changed. -/
theorem cleanEntries_clean (now : String) :
    ∀ (es : List DirectoryEntry) (seen : List String) (acc : List DirectoryEntry),
      (∀ e ∈ es, e.path ≠ "" ∧ 1 ≤ e.usage_count ∧ e.path ∉ seen) →
      (es.map DirectoryEntry.path).Nodup →
      acc.length + es.length ≤ DEFAULT_MAX_HISTORY_ENTRIES →
      cleanEntries now (es.map .entry) seen acc = .ok (acc.reverse ++ es) := by
  intro es
  induction es with
  | nil =>
    intro seen acc _ _ _
    simp [cleanEntries]
  | cons e rest ih =>
    intro seen acc hall hnodup hlen
    obtain ⟨hep, hec, hes⟩ := hall e (by simp)
    have hhead : e.path ∉ rest.map DirectoryEntry.path :=
      (List.nodup_cons.mp (by simpa using hnodup)).1
    have htail : (rest.map DirectoryEntry.path).Nodup :=
      (List.nodup_cons.mp (by simpa using hnodup)).2
    have hrest : ∀ x ∈ rest, x.path ≠ "" ∧ 1 ≤ x.usage_count ∧ x.path ∉ (e.path :: seen) := by
      intro x hx
      obtain ⟨h1, h2, h3⟩ := hall x (by simp [hx])
      refine ⟨h1, h2, ?_⟩
      simp only [List.mem_cons]
      rintro (h | h)
      · exact hhead (h ▸ List.mem_map_of_mem DirectoryEntry.path hx)
      · exact h3 h
    have hmk := mkDirectoryEntry_entry e hec
    by_cases hfull : DEFAULT_MAX_HISTORY_ENTRIES ≤ (e :: acc).length
    · have hrest0 : rest = [] := by
        cases rest with
        | nil => rfl
        | cons r rs =>
          exfalso
          simp only [List.length_cons] at hlen hfull
          omega
      subst hrest0
      simp only [List.map_cons, List.map_nil, cleanEntries, hmk, hep, hes]
      simp [hep, hes, hfull]
    · simp only [List.map_cons, cleanEntries, hmk]
      have hstep := ih (e.path :: seen) (e :: acc) hrest htail
        (by simp only [List.length_cons] at hlen ⊢; omega)
      have hfull' : ¬ DEFAULT_MAX_HISTORY_ENTRIES ≤ acc.length + 1 := by
        simpa using hfull
      simp only [hep, hes] at hstep ⊢
      simp [hep, hes, hfull', hstep]

/-- `validate_directory_history` is the identity on a well-formed entry
list that fits in the bound. -/
theorem validate_entries_clean (now : String) (es : List DirectoryEntry)
    (h1 : ∀ e ∈ es, e.path ≠ "") (h2 : ∀ e ∈ es, 1 ≤ e.usage_count)
    (h3 : (es.map DirectoryEntry.path).Nodup)
    (h4 : es.length ≤ DEFAULT_MAX_HISTORY_ENTRIES) :
    validate_directory_history now (.list (es.map .entry)) = .ok es := by
  have hclean := cleanEntries_clean now es [] []
    (fun e he => ⟨h1 e he, h2 e he, by simp⟩) h3 (by simpa using h4)
  cases es with
  | nil => rfl
  | cons e rest =>
    simpa [validate_directory_history] using hclean

/-- C10 counterexample: on a full (15-entry) history, `recordUse` with the
empty path does change the list — the trim inside
`add_directory_to_history` evicts the least-recent entry before the
validator drops the empty-path entry, leaving 14 entries. -/
theorem recordUse_empty_path_counterexample :
    WFHist h15 ∧
    h15.length = 15 ∧
    recordUse h15 "" "U" = .ok (h15.take 14) ∧
    h15.take 14 ≠ h15 := by
  refine ⟨⟨by decide, by decide, by decide, by decide⟩, by decide, by decide, by decide⟩

/-- C10 (amended): `recordUse` with an empty path never adds an entry and
never alters any surviving entry's fields or relative order; on a history
with fewer than 15 entries the list is entirely unchanged, but on a full
history the last (least-recent) entry is dropped. -/
theorem recordUse_empty_path (h : List DirectoryEntry) (t : String) (hwf : WFHist h) :
    recordUse h "" t = .ok (h.take 14) ∧
    (h.length ≤ 14 → recordUse h "" t = .ok h) := by
  obtain ⟨hlen, hnodup, hne, hcnt⟩ := hwf
  have hfind : h.find? (fun e => e.path == "") = none := by
    rw [List.find?_eq_none]
    intro e he
    simpa using hne e he
  have hadd : add_directory_to_history h "" t =
      (⟨"", t, 1⟩ : DirectoryEntry) :: h.take 14 := by
    simp [add_directory_to_history, hfind, DEFAULT_MAX_HISTORY_ENTRIES]
  have hskip : cleanEntries t (HItem.entry ⟨"", t, 1⟩ :: (h.take 14).map .entry) [] [] =
      cleanEntries t ((h.take 14).map .entry) [] [] := by
    simp [cleanEntries]
  have htail : cleanEntries t ((h.take 14).map .entry) [] [] = .ok (h.take 14) := by
    have := cleanEntries_clean t (h.take 14) [] []
      (fun e he => ⟨hne e (List.take_subset _ _ he), hcnt e (List.take_subset _ _ he), by simp⟩)
      (by rw [List.map_take]; exact hnodup.sublist (List.take_sublist _ _))
      (by
        simp only [List.length_nil, Nat.zero_add]
        exact le_trans (List.length_take_le _ _) (by norm_num [DEFAULT_MAX_HISTORY_ENTRIES]))
    simpa using this
  have hmain : recordUse h "" t = .ok (h.take 14) := by
    rw [recordUse, hadd]
    simp only [List.map_cons, validate_directory_history]
    rw [hskip, htail]
  refine ⟨hmain, fun h14 => ?_⟩
  rw [hmain, List.take_of_length_le h14]

/-- Witness for C10's amended theorem at a concrete two-entry history. -/
theorem recordUse_empty_path_witness :
    recordUse h2ex "" "U" = .ok (h2ex.take 14) ∧
    (h2ex.length ≤ 14 → recordUse h2ex "" "U" = .ok h2ex) :=
  recordUse_empty_path h2ex "U" ⟨by decide, by decide, by decide, by decide⟩

/-- Taking `n` of a well-formed history is well-formed. -/
theorem WFHist_take (h : List DirectoryEntry) (hwf : WFHist h) (n : Nat) :
    WFHist (h.take n) := by
  obtain ⟨h1, h2, h3, h4⟩ := hwf
  refine ⟨?_, ?_, ?_, ?_⟩
  · rw [List.length_take]
    exact le_trans (Nat.min_le_right _ _) h1
  · rw [List.map_take]
    exact h2.sublist (List.take_sublist _ _)
  · exact fun e he => h3 e (List.take_subset _ _ he)
  · exact fun e he => h4 e (List.take_subset _ _ he)

/-- Prepending a fresh entry to a trimmed well-formed history is
well-formed. -/
theorem WFHist_new_entry (h : List DirectoryEntry) (d t : String) (hwf : WFHist h)
    (hd : d ≠ "") (hdh : d ∉ h.map DirectoryEntry.path) :
    WFHist ((⟨d, t, 1⟩ : DirectoryEntry) :: h.take 14) := by
  obtain ⟨h1, h2, h3, h4⟩ := hwf
  refine ⟨?_, ?_, ?_, ?_⟩
  · simp only [List.length_cons]
    have := List.length_take_le 14 h
    show _ ≤ DEFAULT_MAX_HISTORY_ENTRIES
    have h15 : DEFAULT_MAX_HISTORY_ENTRIES = 15 := rfl
    omega
  · simp only [List.map_cons, List.nodup_cons]
    constructor
    · intro hmem
      rw [List.map_take] at hmem
      exact hdh (List.take_subset _ _ hmem)
    · rw [List.map_take]
      exact h2.sublist (List.take_sublist _ _)
  · intro e he
    rcases List.mem_cons.mp he with h5 | h5
    · subst h5; exact hd
    · exact h3 e (List.take_subset _ _ h5)
  · intro e he
    rcases List.mem_cons.mp he with h5 | h5
    · subst h5; exact le_refl 1
    · exact h4 e (List.take_subset _ _ h5)

/-- Promoting an existing entry of a well-formed history is well-formed. -/
theorem WFHist_promote (h : List DirectoryEntry) (d t : String) (hwf : WFHist h)
    (hd : d ≠ "") (n : Nat) (c : DirectoryEntry) (hmem : c ∈ h) (hcd : c.path = d) :
    WFHist ((⟨d, t, n + 1⟩ : DirectoryEntry) :: h.filter (fun e => e.path != d)) := by
  obtain ⟨h1, h2, h3, h4⟩ := hwf
  have hflt : (h.filter (fun e => e.path != d)).length < h.length :=
    List.length_filter_lt_length_iff_exists.mpr ⟨c, hmem, by simp [hcd]⟩
  refine ⟨?_, ?_, ?_, ?_⟩
  · simp only [List.length_cons]
    show _ ≤ DEFAULT_MAX_HISTORY_ENTRIES
    have h15 : DEFAULT_MAX_HISTORY_ENTRIES = 15 := rfl
    rw [h15] at h1 ⊢
    omega
  · simp only [List.map_cons, List.nodup_cons]
    constructor
    · intro hmem2
      obtain ⟨e, he, hpe⟩ := List.mem_map.mp hmem2
      have := List.mem_filter.mp he
      simp [hpe] at this
    · exact h2.sublist (List.Sublist.map _ (List.filter_sublist _))
  · intro e he
    rcases List.mem_cons.mp he with h5 | h5
    · subst h5; exact hd
    · exact h3 e (List.mem_of_mem_filter h5)
  · intro e he
    rcases List.mem_cons.mp he with h5 | h5
    · subst h5; exact Nat.le_add_left 1 n
    · exact h4 e (List.mem_of_mem_filter h5)

/-- `recordUse` on a fresh non-empty path prepends a new entry with usage
count 1 and trims the history to the bound. -/
theorem recordUse_new (h : List DirectoryEntry) (d t : String)
    (hwf : WFHist h) (hd : d ≠ "") (hnotin : d ∉ h.map DirectoryEntry.path) :
    recordUse h d t = .ok ((⟨d, t, 1⟩ : DirectoryEntry) :: h.take 14) := by
  obtain ⟨hlen, hnodup, hne, hcnt⟩ := hwf
  have hfind : h.find? (fun e => e.path == d) = none := by
    rw [List.find?_eq_none]
    intro e he hbe
    have hpe : e.path = d := by simpa using hbe
    exact hnotin (hpe ▸ List.mem_map_of_mem DirectoryEntry.path he)
  have hadd : add_directory_to_history h d t = (⟨d, t, 1⟩ : DirectoryEntry) :: h.take 14 := by
    simp [add_directory_to_history, hfind, DEFAULT_MAX_HISTORY_ENTRIES]
  rw [recordUse, hadd]
  have hwf2 := WFHist_new_entry h d t ⟨hlen, hnodup, hne, hcnt⟩ hd hnotin
  exact validate_entries_clean t _ hwf2.2.2.1 hwf2.2.2.2 hwf2.2.1 hwf2.1

/-- `recordUse` on an already-present non-empty path promotes it to the
front with an incremented count and refreshed timestamp. -/
theorem recordUse_existing (h : List DirectoryEntry) (d t : String)
    (hwf : WFHist h) (hd : d ≠ "") (c : DirectoryEntry)
    (hfind : h.find? (fun e => e.path == d) = some c) :
    recordUse h d t =
      .ok ((⟨d, t, c.usage_count + 1⟩ : DirectoryEntry) ::
        h.filter (fun e => e.path != d)) := by
  have hmem : c ∈ h := List.mem_of_find?_eq_some hfind
  have hcd : c.path = d := by simpa using List.find?_some hfind
  have hflt : (h.filter (fun e => e.path != d)).length < h.length :=
    List.length_filter_lt_length_iff_exists.mpr ⟨c, hmem, by simp [hcd]⟩
  have hadd : add_directory_to_history h d t =
      (⟨d, t, c.usage_count + 1⟩ : DirectoryEntry) :: h.filter (fun e => e.path != d) := by
    simp only [add_directory_to_history, hfind]
    refine List.take_of_length_le ?_
    simp only [List.length_cons]
    show _ ≤ DEFAULT_MAX_HISTORY_ENTRIES
    have h15 : DEFAULT_MAX_HISTORY_ENTRIES = 15 := rfl
    have h1 := hwf.1
    rw [h15] at h1 ⊢
    omega
  rw [recordUse, hadd]
  have hwf2 := WFHist_promote h d t hwf hd c.usage_count c hmem hcd
  exact validate_entries_clean t _ hwf2.2.2.1 hwf2.2.2.2 hwf2.2.1 hwf2.1

/-- Every `recordUse` on a well-formed history succeeds and preserves
well-formedness. -/
theorem recordUse_wf (h : List DirectoryEntry) (d t : String) (hwf : WFHist h) :
    ∃ l, recordUse h d t = .ok l ∧ WFHist l := by
  by_cases hd : d = ""
  · subst hd
    exact ⟨h.take 14, (recordUse_empty_path h t hwf).1, WFHist_take h hwf 14⟩
  · cases hfind : h.find? (fun e => e.path == d) with
    | none =>
      have hdh : d ∉ h.map DirectoryEntry.path := by
        rw [List.find?_eq_none] at hfind
        intro hmem
        obtain ⟨e, he, hpe⟩ := List.mem_map.mp hmem
        exact hfind e he (by simp [hpe])
      exact ⟨_, recordUse_new h d t hwf hd hdh, WFHist_new_entry h d t hwf hd hdh⟩
    | some c =>
      have hcd : c.path = d := by simpa using List.find?_some hfind
      exact ⟨_, recordUse_existing h d t hwf hd c hfind,
        WFHist_promote h d t hwf hd c.usage_count c (List.mem_of_find?_eq_some hfind) hcd⟩

/-- Any sequence of `recordUse` calls from a well-formed history succeeds
and ends well-formed. -/
theorem recordAll_wf (ops : List (String × String)) :
    ∀ h, WFHist h → ∃ l, recordAll h ops = .ok l ∧ WFHist l := by
  induction ops with
  | nil => exact fun h hwf => ⟨h, rfl, hwf⟩
  | cons op rest ih =>
    intro h hwf
    obtain ⟨l1, hl1, hwf1⟩ := recordUse_wf h op.1 op.2 hwf
    obtain ⟨l2, hl2, hwf2⟩ := ih l1 hwf1
    exact ⟨l2, by simp [recordAll, hl1, hl2], hwf2⟩

/-- Truncating inside an append does not change an outer truncation to a
smaller or equal length. -/
theorem take_append_take {α : Type} (n : Nat) :
    ∀ (a b : List α) (m : Nat), m ≤ n → (a ++ b.take n).take m = (a ++ b).take m := by
  intro a
  induction a with
  | nil =>
    intro b m hm
    simp [List.take_take, Nat.min_eq_left hm]
  | cons x a ih =>
    intro b m hm
    cases m with
    | zero => simp
    | succ m2 =>
      simp only [List.cons_append, List.take_succ_cons]
      rw [ih b m2 (Nat.le_of_succ_le hm)]

/-- Recording a sequence of distinct fresh non-empty paths yields exactly
the reversed sequence of new entries in front of the old history, trimmed
to the bound. -/
theorem recordAll_distinct :
    ∀ (ops : List (String × String)) (h : List DirectoryEntry), WFHist h →
      (ops.map Prod.fst).Nodup →
      (∀ p ∈ ops.map Prod.fst, p ≠ "") →
      (∀ p ∈ ops.map Prod.fst, p ∉ h.map DirectoryEntry.path) →
      recordAll h ops =
        .ok (((ops.map (fun op => (⟨op.1, op.2, 1⟩ : DirectoryEntry))).reverse ++ h).take
          DEFAULT_MAX_HISTORY_ENTRIES) := by
  intro ops
  induction ops with
  | nil =>
    intro h hwf _ _ _
    simp [recordAll, List.take_of_length_le hwf.1]
  | cons op rest ih =>
    intro h hwf hnd hne hdisj
    obtain ⟨d, t⟩ := op
    have hd : d ≠ "" := hne d (by simp)
    have hdh : d ∉ h.map DirectoryEntry.path := hdisj d (by simp)
    have hrec := recordUse_new h d t hwf hd hdh
    have hwf1 : WFHist ((⟨d, t, 1⟩ : DirectoryEntry) :: h.take 14) :=
      WFHist_new_entry h d t hwf hd hdh
    have hrest_nd : (rest.map Prod.fst).Nodup := (List.nodup_cons.mp (by simpa using hnd)).2
    have hd_not_rest : d ∉ rest.map Prod.fst := (List.nodup_cons.mp (by simpa using hnd)).1
    have hrest_ne : ∀ p ∈ rest.map Prod.fst, p ≠ "" := fun p hp => hne p (by simp [hp])
    have hrest_disj : ∀ p ∈ rest.map Prod.fst,
        p ∉ ((⟨d, t, 1⟩ : DirectoryEntry) :: h.take 14).map DirectoryEntry.path := by
      intro p hp
      simp only [List.map_cons, List.mem_cons]
      rintro (h1 | h1)
      · exact hd_not_rest (h1 ▸ hp)
      · rw [List.map_take] at h1
        exact hdisj p (by simp [hp]) (List.take_subset _ _ h1)
    have hstep : recordAll h ((d, t) :: rest) =
        recordAll ((⟨d, t, 1⟩ : DirectoryEntry) :: h.take 14) rest := by
      simp [recordAll, hrec]
    rw [hstep, ih _ hwf1 hrest_nd hrest_ne hrest_disj]
    congr 1
    have hcons : (⟨d, t, 1⟩ : DirectoryEntry) :: h.take 14 =
        ((⟨d, t, 1⟩ : DirectoryEntry) :: h).take DEFAULT_MAX_HISTORY_ENTRIES := rfl
    rw [hcons, take_append_take DEFAULT_MAX_HISTORY_ENTRIES _ _ _ (le_refl _)]
    simp [List.append_assoc]

/-- C4: starting from the empty store, every `recordUse` sequence yields a
history of length at most 15 with pairwise-distinct paths; and recording
distinct non-empty paths yields exactly the 15 most recently recorded
paths in most-recent-first order (so 20 distinct paths leave exactly 15). -/
theorem history_bounded_dedup :
    (∀ ops : List (String × String), ∃ l, recordAll [] ops = .ok l ∧
        l.length ≤ DEFAULT_MAX_HISTORY_ENTRIES ∧ (l.map DirectoryEntry.path).Nodup) ∧
    (∀ ops : List (String × String), (ops.map Prod.fst).Nodup →
        (∀ p ∈ ops.map Prod.fst, p ≠ "") →
        recordAll [] ops = .ok ((ops.reverse.take DEFAULT_MAX_HISTORY_ENTRIES).map
          (fun op => (⟨op.1, op.2, 1⟩ : DirectoryEntry)))) := by
  constructor
  · intro ops
    obtain ⟨l, hl, hwf⟩ := recordAll_wf ops [] ⟨by norm_num, by simp, by simp, by simp⟩
    exact ⟨l, hl, hwf.1, hwf.2.1⟩
  · intro ops hnd hne
    have := recordAll_distinct ops [] ⟨by norm_num, by simp, by simp, by simp⟩
      hnd hne (by simp)
    rw [this]
    congr 1
    rw [List.append_nil, ← List.map_reverse, ← List.map_take]

/-- Witness for C4: recording 20 concrete distinct paths leaves exactly
the most recent 15, most-recent-first. -/
theorem history_bounded_dedup_witness :
    recordAll [] ops20 = .ok ((ops20.reverse.take DEFAULT_MAX_HISTORY_ENTRIES).map
      (fun op => (⟨op.1, op.2, 1⟩ : DirectoryEntry))) ∧
    ((ops20.reverse.take DEFAULT_MAX_HISTORY_ENTRIES).map
      (fun op => (⟨op.1, op.2, 1⟩ : DirectoryEntry))).length = 15 :=
  ⟨history_bounded_dedup.2 ops20 (by decide) (by decide), by decide⟩

/-- `any (path == x)` over entries is membership of `x` among the paths. -/
theorem any_path_eq (acc : List DirectoryEntry) (x : String) :
    acc.any (fun e => e.path == x) = true ↔ x ∈ acc.map DirectoryEntry.path := by
  rw [List.any_eq_true]
  constructor
  · rintro ⟨e, he, hbe⟩
    have hpe : e.path = x := by simpa using hbe
    exact hpe ▸ List.mem_map_of_mem DirectoryEntry.path he
  · intro hmem
    obtain ⟨e, he, hpe⟩ := List.mem_map.mp hmem
    exact ⟨e, he, by simp [hpe]⟩

/-- The legacy migration loop produces the first-occurrence deduplication
of the non-empty path strings, converted to fresh count-1 entries,
truncated to the bound. -/
theorem migrateLegacy_eq (now : String) :
    ∀ (l : List String) (acc : List DirectoryEntry),
      (∀ x ∈ l, x ≠ "") → acc.length < DEFAULT_MAX_HISTORY_ENTRIES →
      migrateLegacy now (l.map .str) acc =
        (acc.reverse ++ (dedupFirst (acc.map DirectoryEntry.path) l).map
          (fun p => (⟨p, now, 1⟩ : DirectoryEntry))).take DEFAULT_MAX_HISTORY_ENTRIES := by
  have h15 : DEFAULT_MAX_HISTORY_ENTRIES = 15 := rfl
  intro l
  induction l with
  | nil =>
    intro acc _ hlen
    simp only [List.map_nil, migrateLegacy, dedupFirst, List.append_nil]
    rw [List.take_of_length_le (by rw [List.length_reverse]; omega)]
  | cons x xs ih =>
    intro acc hne hlen
    have hx : x ≠ "" := hne x (by simp)
    have hxs : ∀ y ∈ xs, y ≠ "" := fun y hy => hne y (by simp [hy])
    by_cases hseen : x ∈ acc.map DirectoryEntry.path
    · have hcond : ¬ (x ≠ "" ∧ ¬ acc.any (fun e => e.path == x) = true) := by
        simp only [not_and, not_not]
        exact fun _ => (any_path_eq acc x).mpr hseen
      simp only [List.map_cons, migrateLegacy]
      rw [if_neg hcond, if_neg (by omega), ih acc hxs hlen, dedupFirst, if_pos hseen]
    · have hcond : x ≠ "" ∧ ¬ acc.any (fun e => e.path == x) = true := by
        refine ⟨hx, ?_⟩
        rw [any_path_eq]
        exact hseen
      simp only [List.map_cons, migrateLegacy]
      rw [if_pos hcond]
      by_cases hfull :
          DEFAULT_MAX_HISTORY_ENTRIES ≤ ((⟨x, now, 1⟩ : DirectoryEntry) :: acc).length
      · rw [if_pos hfull]
        have hla : acc.length = 14 := by
          simp only [List.length_cons] at hfull
          omega
        rw [dedupFirst, if_neg hseen, List.take_append_eq_append_take,
          List.take_of_length_le (by rw [List.length_reverse]; omega)]
        have hrem : DEFAULT_MAX_HISTORY_ENTRIES - acc.reverse.length = 1 := by
          rw [List.length_reverse]
          omega
        rw [hrem]
        simp
      · rw [if_neg hfull]
        have hlen2 : ((⟨x, now, 1⟩ : DirectoryEntry) :: acc).length <
            DEFAULT_MAX_HISTORY_ENTRIES := by
          simp only [List.length_cons] at hfull ⊢
          omega
        rw [ih _ hxs hlen2, dedupFirst, if_neg hseen]
        simp [List.append_assoc]

/-- C9: legacy migration — a plain list of (non-empty) path strings
becomes DirectoryEntry records with usage count 1 and the fresh timestamp,
first occurrence winning on duplicates, order preserved, truncated to 15;
in particular `["X", "Y", "X"]` yields exactly `[X, Y]` with counts 1. -/
theorem legacy_migration (l : List String) (now : String)
    (hne : ∀ x ∈ l, x ≠ "") :
    validate_directory_history now (.list (l.map .str)) =
      .ok (((dedupFirst [] l).take DEFAULT_MAX_HISTORY_ENTRIES).map
        (fun p => (⟨p, now, 1⟩ : DirectoryEntry))) ∧
    validate_directory_history now (.list (["X", "Y", "X"].map .str)) =
      .ok [⟨"X", now, 1⟩, ⟨"Y", now, 1⟩] := by
  constructor
  · cases l with
    | nil => simp [validate_directory_history, cleanEntries, dedupFirst]
    | cons x xs =>
      have hmig := migrateLegacy_eq now (x :: xs) [] hne
        (by norm_num [DEFAULT_MAX_HISTORY_ENTRIES])
      simp only [List.map_cons] at hmig ⊢
      simp only [validate_directory_history]
      rw [hmig]
      simp only [List.map_nil, List.reverse_nil, List.nil_append]
      rw [List.map_take]
  · rfl

/-- Witness for C9 at the concrete legacy list `["X", "Y", "X"]`. -/
theorem legacy_migration_witness :
    validate_directory_history "T" (.list (["X", "Y", "X"].map .str)) =
      .ok (((dedupFirst [] ["X", "Y", "X"]).take DEFAULT_MAX_HISTORY_ENTRIES).map
        (fun p => (⟨p, "T", 1⟩ : DirectoryEntry))) ∧
    ((dedupFirst [] ["X", "Y", "X"]).take DEFAULT_MAX_HISTORY_ENTRIES).map
        (fun p => (⟨p, "T", 1⟩ : DirectoryEntry)) = [⟨"X", "T", 1⟩, ⟨"Y", "T", 1⟩] :=
  ⟨(legacy_migration ["X", "Y", "X"] "T" (by decide)).1, by decide⟩

/-- On a modern-format list (no raw strings), validation is the cleaning
loop. -/
theorem validate_eq_clean (now : String) (items : List HItem)
    (h : ∀ it ∈ items, isStrItem it = false) :
    validate_directory_history now (.list items) = cleanEntries now items [] [] := by
  cases items with
  | nil => rfl
  | cons a rest =>
    cases a with
    | str s => exact absurd (h (HItem.str s) (by simp)) (by simp [isStrItem])
    | dict f => rfl
    | entry e => rfl
    | other => rfl

/-- The cleaning loop ignores non-usable items (dropping them does not
change the result) and, when every item's field values pass validation,
never raises. -/
theorem cleanEntries_filter_ok (now : String) :
    ∀ (items : List HItem) (seen : List String) (acc : List DirectoryEntry),
      (∀ it ∈ items, fieldsOk now it = true) →
      cleanEntries now items seen acc =
        cleanEntries now (items.filter usableItem) seen acc ∧
      ∃ l, cleanEntries now items seen acc = .ok l := by
  intro items
  induction items with
  | nil =>
    intro seen acc _
    exact ⟨rfl, _, rfl⟩
  | cons it rest ih =>
    intro seen acc hok
    have hokrest : ∀ x ∈ rest, fieldsOk now x = true := fun x hx => hok x (by simp [hx])
    have hokit : fieldsOk now it = true := hok it (by simp)
    cases it with
    | other =>
      rw [show cleanEntries now (HItem.other :: rest) seen acc =
          cleanEntries now rest seen acc from rfl,
        show (HItem.other :: rest).filter usableItem = rest.filter usableItem from rfl]
      exact ih seen acc hokrest
    | str s =>
      rw [show cleanEntries now (HItem.str s :: rest) seen acc =
          cleanEntries now rest seen acc from rfl,
        show (HItem.str s :: rest).filter usableItem = rest.filter usableItem from rfl]
      exact ih seen acc hokrest
    | entry e =>
      by_cases hpe : e.path = ""
      · have hstep : cleanEntries now (HItem.entry e :: rest) seen acc =
            cleanEntries now rest seen acc := by
          simp [cleanEntries, hpe]
        have hfilt : (HItem.entry e :: rest).filter usableItem = rest.filter usableItem := by
          simp [List.filter_cons, usableItem, hpe]
        rw [hstep, hfilt]
        exact ih seen acc hokrest
      · have husable : usableItem (HItem.entry e) = true := by simp [usableItem, hpe]
        have hfilt : (HItem.entry e :: rest).filter usableItem =
            HItem.entry e :: rest.filter usableItem := by
          simp [List.filter_cons, husable]
        rw [hfilt]
        by_cases hseen : e.path ∈ seen
        · have hstep : ∀ l2, cleanEntries now (HItem.entry e :: l2) seen acc =
              cleanEntries now l2 seen acc := by
            intro l2
            simp [cleanEntries, hpe, hseen]
          rw [hstep, hstep]
          exact ih seen acc hokrest
        · have hmkok : isErr (mkDirectoryEntry e.path (.str e.last_used)
              (.num (e.usage_count : Int))) = false := by
            have hX := hokit
            simp only [fieldsOk, husable, Bool.not_true, Bool.false_or] at hX
            simpa using hX
          obtain ⟨v, hv⟩ : ∃ v, mkDirectoryEntry e.path (.str e.last_used)
              (.num (e.usage_count : Int)) = .ok v := by
            cases hm : mkDirectoryEntry e.path (.str e.last_used)
                (.num (e.usage_count : Int)) with
            | ok v => exact ⟨v, rfl⟩
            | error err => rw [hm] at hmkok; simp [isErr] at hmkok
          have hstep : ∀ l2, cleanEntries now (HItem.entry e :: l2) seen acc =
              (if DEFAULT_MAX_HISTORY_ENTRIES ≤ (v :: acc).length then
                .ok (v :: acc).reverse
               else cleanEntries now l2 (e.path :: seen) (v :: acc)) := by
            intro l2
            simp [cleanEntries, hpe, hseen, hv]
          rw [hstep, hstep]
          by_cases hfull : DEFAULT_MAX_HISTORY_ENTRIES ≤ (v :: acc).length
          · refine ⟨?_, (v :: acc).reverse, by rw [if_pos hfull]⟩
            rw [if_pos hfull, if_pos hfull]
          · simp only [if_neg hfull]
            exact ih (e.path :: seen) (v :: acc) hokrest
    | dict fields =>
      cases hj : jget fields "path" (.str "") with
      | str p =>
        by_cases hpe : p = ""
        · subst hpe
          have hstep : cleanEntries now (HItem.dict fields :: rest) seen acc =
              cleanEntries now rest seen acc := by
            simp [cleanEntries, hj]
          have hfilt : (HItem.dict fields :: rest).filter usableItem =
              rest.filter usableItem := by
            simp [List.filter_cons, usableItem, hj]
          rw [hstep, hfilt]
          exact ih seen acc hokrest
        · have husable : usableItem (HItem.dict fields) = true := by
            simp [usableItem, hj, hpe]
          have hfilt : (HItem.dict fields :: rest).filter usableItem =
              HItem.dict fields :: rest.filter usableItem := by
            simp [List.filter_cons, husable]
          rw [hfilt]
          by_cases hseen : p ∈ seen
          · have hstep : ∀ l2, cleanEntries now (HItem.dict fields :: l2) seen acc =
                cleanEntries now l2 seen acc := by
              intro l2
              simp [cleanEntries, hj, hpe, hseen]
            rw [hstep, hstep]
            exact ih seen acc hokrest
          · have hmkok : isErr (mkDirectoryEntry p (jget fields "last_used" (.str now))
                (jget fields "usage_count" (.num 1))) = false := by
              have hX := hokit
              simp only [fieldsOk, husable, Bool.not_true, Bool.false_or, hj] at hX
              simpa using hX
            obtain ⟨v, hv⟩ : ∃ v, mkDirectoryEntry p (jget fields "last_used" (.str now))
                (jget fields "usage_count" (.num 1)) = .ok v := by
              cases hm : mkDirectoryEntry p (jget fields "last_used" (.str now))
                  (jget fields "usage_count" (.num 1)) with
              | ok v => exact ⟨v, rfl⟩
              | error err => rw [hm] at hmkok; simp [isErr] at hmkok
            have hstep : ∀ l2, cleanEntries now (HItem.dict fields :: l2) seen acc =
                (if DEFAULT_MAX_HISTORY_ENTRIES ≤ (v :: acc).length then
                  .ok (v :: acc).reverse
                 else cleanEntries now l2 (p :: seen) (v :: acc)) := by
              intro l2
              simp [cleanEntries, hj, hpe, hseen, hv]
            rw [hstep, hstep]
            by_cases hfull : DEFAULT_MAX_HISTORY_ENTRIES ≤ (v :: acc).length
            · refine ⟨?_, (v :: acc).reverse, by rw [if_pos hfull]⟩
              rw [if_pos hfull, if_pos hfull]
            · simp only [if_neg hfull]
              exact ih (p :: seen) (v :: acc) hokrest
      | null =>
        have hstep : cleanEntries now (HItem.dict fields :: rest) seen acc =
            cleanEntries now rest seen acc := by
          simp [cleanEntries, hj]
        have hfilt : (HItem.dict fields :: rest).filter usableItem =
            rest.filter usableItem := by
          simp [List.filter_cons, usableItem, hj]
        rw [hstep, hfilt]
        exact ih seen acc hokrest
      | bool b =>
        have hstep : cleanEntries now (HItem.dict fields :: rest) seen acc =
            cleanEntries now rest seen acc := by
          simp [cleanEntries, hj]
        have hfilt : (HItem.dict fields :: rest).filter usableItem =
            rest.filter usableItem := by
          simp [List.filter_cons, usableItem, hj]
        rw [hstep, hfilt]
        exact ih seen acc hokrest
      | num n =>
        have hstep : cleanEntries now (HItem.dict fields :: rest) seen acc =
            cleanEntries now rest seen acc := by
          simp [cleanEntries, hj]
        have hfilt : (HItem.dict fields :: rest).filter usableItem =
            rest.filter usableItem := by
          simp [List.filter_cons, usableItem, hj]
        rw [hstep, hfilt]
        exact ih seen acc hokrest
      | other =>
        have hstep : cleanEntries now (HItem.dict fields :: rest) seen acc =
            cleanEntries now rest seen acc := by
          simp [cleanEntries, hj]
        have hfilt : (HItem.dict fields :: rest).filter usableItem =
            rest.filter usableItem := by
          simp [List.filter_cons, usableItem, hj]
        rw [hstep, hfilt]
        exact ih seen acc hokrest

/-- C8 counterexample: one malformed field value (`usage_count` 0) among
otherwise valid entries makes history validation raise, and `load_config`
then discards the entire configuration — the valid entry `"good"` is NOT
kept, although alone it validates fine. -/
theorem history_load_counterexample :
    isErr (validate_directory_history "N" (.list
      [.dict [("path", .str "good"), ("last_used", .str "T"), ("usage_count", .num 3)],
       .dict [("path", .str "bad"), ("usage_count", .num 0)]])) = true ∧
    load_config_directory_history "N" (.list
      [.dict [("path", .str "good"), ("last_used", .str "T"), ("usage_count", .num 3)],
       .dict [("path", .str "bad"), ("usage_count", .num 0)]]) = [] ∧
    validate_directory_history "N" (.list
      [.dict [("path", .str "good"), ("last_used", .str "T"), ("usage_count", .num 3)]]) =
      .ok [⟨"good", "T", 3⟩] := by
  refine ⟨by decide, by decide, by decide⟩

/-- C8 (amended): on a modern-format persisted list whose kept entries'
field values pass validation, wrong-shape items (non-dict items; missing,
empty or non-string paths) are discarded locally — removing them does not
change the result — and the whole load succeeds.  (When some entry's
field values fail validation, e.g. `usage_count` below 1, the whole load
raises and the entire configuration falls back to defaults.) -/
theorem history_load_local_recovery (now : String) (items : List HItem)
    (hmodern : ∀ it ∈ items, isStrItem it = false)
    (hok : ∀ it ∈ items, fieldsOk now it = true) :
    validate_directory_history now (.list items) =
      validate_directory_history now (.list (items.filter usableItem)) ∧
    ∃ l, validate_directory_history now (.list items) = .ok l := by
  have hmodern2 : ∀ it ∈ items.filter usableItem, isStrItem it = false :=
    fun it hit => hmodern it (List.mem_of_mem_filter hit)
  obtain ⟨heq, hex⟩ := cleanEntries_filter_ok now items [] [] hok
  rw [validate_eq_clean now items hmodern, validate_eq_clean now _ hmodern2]
  exact ⟨heq, hex⟩

/-- Witness for C8's amended theorem on a concrete list mixing a non-dict
item, a dict with a non-string path, a valid entry dict, and an
empty-path entry object. -/
theorem history_load_local_recovery_witness :
    validate_directory_history "N" (.list
      [.other, .dict [("path", .num 5)],
       .dict [("path", .str "good"), ("last_used", .str "T"), ("usage_count", .num 3)],
       .entry ⟨"", "T", 1⟩]) =
      validate_directory_history "N" (.list
        (([.other, .dict [("path", .num 5)],
           .dict [("path", .str "good"), ("last_used", .str "T"), ("usage_count", .num 3)],
           .entry ⟨"", "T", 1⟩] : List HItem).filter usableItem)) ∧
    ∃ l, validate_directory_history "N" (.list
      [.other, .dict [("path", .num 5)],
       .dict [("path", .str "good"), ("last_used", .str "T"), ("usage_count", .num 3)],
       .entry ⟨"", "T", 1⟩]) = .ok l :=
  history_load_local_recovery "N" _ (by decide) (by decide)

end EasyClaude
